import Mathlib

/-!
Shallow embedding of the smart-money position aggregation of
`ath_get_smart_money_position.gen.py` (function `get_latest_smart_money`,
lines 51-121), together with the token normalizers of the two variant
implementations (`api-tests/SmartMoneyPosition/ATH-GetSmartMoneyPosition.py`
line 149 and `api_tests/SmartMoneyPosition/ath_get_smart_money_position.py`
lines 143-152), which some claims reference.

Modelling conventions:
* A Python dict record is a structure of `Option` fields; `none` means the
  key is absent.  The `.get(key, default)` defaults of the source are applied
  at the use sites, exactly where the source applies them.
* Python `float` arithmetic is modelled by exact rationals (`ℚ`); `int(x)`
  is truncation toward zero (`pyInt`).  The numeric literals appearing in
  the repository's data and tests are small decimal strings, where the two
  semantics agree.
* Python exceptions raised inside the aggregation (`ValueError` from
  `float(...)`, `IndexError` from `[-1]` on an empty `split()` result) are
  modelled by `Except PyErr`.
* A Python dict with its insertion order is an association list with
  pairwise-distinct keys; a Python `set` is a deduplicated list in insertion
  order (only its size, and its contents as a set, are observable in claims).
* Python's `sorted(..., reverse=True)` is a stable descending sort; the
  structurally recursive `List.insertionSort` with the reflexive total
  relation `remainingOrder` is stable and sorted for the same preorder, hence
  produces the identical output list.
-/

/-- Errors the Python aggregation can raise. -/
inductive PyErr where
  | valueError
  | indexError
deriving Repr, DecidableEq

/-- A raw input record (Python dict).  `none` models an absent key.
Fields are those read by `get_latest_smart_money`. -/
structure PRecord where
  indexToken : Option String := none
  token : Option String := none
  isLong : Option Bool := none
  total_positions : Option Int := none
  percentage : Option String := none
  position : Option String := none
  trader_id : Option String := none
  protocol : Option String := none
deriving Repr, DecidableEq

/-- The per-token accumulator dict built at lines 59-66 of the source. -/
structure Stats where
  long_count : Int
  short_count : Int
  traders : List String
  protocols : List String
  total_positions : Int
deriving Repr, DecidableEq

/-- The output record built at lines 97-105 / 111-119 of the source. -/
structure TokenSentiment where
  token : String
  long_count : Int
  short_count : Int
  total_positions : Int
  unique_traders : Nat
  protocols : List String
  sentiment : String
deriving Repr, DecidableEq

/-- Digits of a char list read as a base-10 natural number; `none` if any
char is not an ASCII digit.  (`some 0` on the empty list; callers check
emptiness where Python requires at least one digit.) -/
def digitsVal? (l : List Char) : Option Nat :=
  l.foldl
    (fun acc c =>
      match acc with
      | none => none
      | some n => if c.isDigit then some (n * 10 + (c.toNat - 48)) else none)
    (some 0)

/-- A decimal literal parsed by Python's `float`, represented exactly:
the value is `man / 10 ^ exp`.  The numeric strings of this repository are
short decimals, on which Python's binary `float` and this exact
representation produce the same `int(...)` truncations. -/
structure PyFloat where
  man : Int
  exp : Nat
deriving Repr, DecidableEq

/-- The rational value of a parsed decimal. -/
def PyFloat.toRat (d : PyFloat) : ℚ :=
  (d.man : ℚ) / (10 : ℚ) ^ d.exp

/-- Model of Python `float(s)` restricted to plain decimal literals
`[+-] digits [. digits]` — the grammar covering every percentage string in
this repository; anything else (e.g. `"invalid"`) yields `none`, as
`float` raises `ValueError`. -/
def pyFloat? (s : String) : Option PyFloat :=
  let cs := s.toList
  let signed : Int × List Char :=
    match cs with
    | '-' :: r => (-1, r)
    | '+' :: r => (1, r)
    | r => (1, r)
  let intPart := signed.2.takeWhile (fun c => c ≠ '.')
  match signed.2.dropWhile (fun c => c ≠ '.') with
  | [] =>
    if intPart = [] then none
    else (digitsVal? intPart).map (fun n => ⟨signed.1 * n, 0⟩)
  | _ :: frac =>
    if frac.any (fun c => c = '.') then none
    else if intPart = [] ∧ frac = [] then none
    else
      match digitsVal? intPart, digitsVal? frac with
      | some a, some b =>
        some ⟨signed.1 * ((a : Int) * (10 : Int) ^ frac.length + b), frac.length⟩
      | _, _ => none

/-- Python `s.rstrip('%')`: remove all trailing `%` characters. -/
def rstripPct (s : String) : String :=
  String.mk ((s.toList.reverse.dropWhile (fun c => c = '%')).reverse)

/-- Python `s.split()` (no separator): split on whitespace runs, dropping
empty words.  `acc` holds the current word reversed. -/
def wsSplitAux : List Char → List Char → List (List Char)
  | [], acc => if acc = [] then [] else [acc.reverse]
  | c :: cs, acc =>
    if c.isWhitespace then
      (if acc = [] then [] else [acc.reverse]) ++ wsSplitAux cs []
    else wsSplitAux cs (c :: acc)

def pySplitWs (s : String) : List String :=
  (wsSplitAux s.toList []).map String.mk

/-- Python `int(x)` on a real value: truncation toward zero.  On a rational
in lowest terms this is truncating division of numerator by denominator. -/
def pyInt (q : ℚ) : Int :=
  q.num.tdiv (q.den : Int)

/-- The source's `int(total * percentage / 100)` (lines 83 and 86), computed
exactly on the scaled-integer representation of the parsed percentage:
`total * (man / 10 ^ exp) / 100 = (total * man) / (100 * 10 ^ exp)`, and
`int(...)` is truncating division.  `pyTruncPct_eq_pyInt` below proves this
agrees with `pyInt` of the rational value. -/
def pyTruncPct (total : Int) (pct : PyFloat) : Int :=
  (total * pct.man).tdiv (100 * (10 : Int) ^ pct.exp)

/-- Python `a or b` on integers: `a` if nonzero, else `b`. -/
def pyOr (a b : Int) : Int :=
  if a ≠ 0 then a else b

/-- Line 55-57: `token = position.get('indexToken') or
position.get('token', '').replace('$', '')`, skipping falsy results.
`none` means the record is skipped. -/
def extractToken (p : PRecord) : Option String :=
  let fallback := String.mk ((p.token.getD "").toList.filter (fun c => c ≠ '$'))
  let t : String :=
    match p.indexToken with
    | some s => if s = "" then fallback else s
    | none => fallback
  if t = "" then none else some t

/-- Lines 60-66: the fresh accumulator for a token's first record. -/
def initStats (p : PRecord) : Stats :=
  { long_count := 0
    short_count := 0
    traders := []
    protocols := []
    total_positions := p.total_positions.getD 0 }

/-- Python `set.add` on the insertion-ordered list model. -/
def setAdd (s : List String) (x : String) : List String :=
  if x ∈ s then s else s ++ [x]

/-- Lines 70-89: update one token's accumulator from one record.  A record
with an `isLong` key is a live per-position record (lines 70-76); otherwise
the legacy pre-aggregated branch runs (lines 77-89), which can raise
`ValueError` (malformed percentage) or `IndexError` (empty `position`). -/
def processRecord (st : Stats) (p : PRecord) : Except PyErr Stats :=
  match p.isLong with
  | some b =>
    let st1 :=
      if b then { st with long_count := st.long_count + 1 }
      else { st with short_count := st.short_count + 1 }
    .ok { st1 with
          traders := setAdd st1.traders (p.trader_id.getD "unknown")
          protocols := setAdd st1.protocols (p.protocol.getD "unknown") }
  | none =>
    let total : Int := p.total_positions.getD 0
    match pyFloat? (rstripPct (p.percentage.getD "0%")) with
    | none => .error .valueError
    | some pct =>
      match (pySplitWs (p.position.getD "")).getLast? with
      | none => .error .indexError
      | some posType =>
        if posType = "LONG" then
          .ok { st with
                long_count := pyTruncPct total pct
                short_count := total - pyTruncPct total pct
                total_positions := total }
        else
          .ok { st with
                short_count := pyTruncPct total pct
                long_count := total - pyTruncPct total pct
                total_positions := total }

/-- Lookup in the insertion-ordered dict model. -/
def alistFind? (m : List (String × Stats)) (k : String) : Option Stats :=
  (m.find? (fun e => e.1 = k)).map (fun e => e.2)

/-- In-place value update (keys and their order unchanged). -/
def alistUpdate (m : List (String × Stats)) (k : String) (v : Stats) :
    List (String × Stats) :=
  m.map (fun e => if e.1 = k then (k, v) else e)

/-- Python `del m[k]` on the dict model. -/
def alistRemove (m : List (String × Stats)) (k : String) :
    List (String × Stats) :=
  m.filter (fun e => e.1 ≠ k)

/-- One iteration of the loop at lines 54-89: extract the token (skip if
falsy), insert a fresh accumulator on first sight, then update it. -/
def stepRecord (m : List (String × Stats)) (p : PRecord) :
    Except PyErr (List (String × Stats)) :=
  match extractToken p with
  | none => .ok m
  | some tok =>
    let cur := (alistFind? m tok).getD (initStats p)
    let m1 := if (alistFind? m tok).isSome then m else m ++ [(tok, initStats p)]
    (processRecord cur p).map (fun st => alistUpdate m1 tok st)

/-- The whole grouping loop (lines 52-89), threading the dict through the
records; the first raised exception aborts the run. -/
def buildGroups : List (String × Stats) → List PRecord →
    Except PyErr (List (String × Stats))
  | m, [] => .ok m
  | m, p :: ps =>
    match stepRecord m p with
    | .error e => .error e
    | .ok m2 => buildGroups m2 ps

/-- Lines 97-105 / 111-119: format one token's accumulator. -/
def emit (tok : String) (st : Stats) : TokenSentiment :=
  { token := tok
    long_count := st.long_count
    short_count := st.short_count
    total_positions := pyOr st.total_positions (st.long_count + st.short_count)
    unique_traders := st.traders.length
    protocols := st.protocols
    sentiment := if st.long_count > st.short_count then "bullish" else "bearish" }

/-- Line 92. -/
def priorityTokens : List String := ["BTC", "ETH", "SOL"]

/-- Lines 94-106: emit each priority token present, deleting it from the
dict; returns the emitted records and the remaining dict. -/
def priorityPass : List String → List (String × Stats) →
    List TokenSentiment × List (String × Stats)
  | [], m => ([], m)
  | t :: ts, m =>
    match alistFind? m t with
    | some st =>
      let rest := priorityPass ts (alistRemove m t)
      (emit t st :: rest.1, rest.2)
    | none => priorityPass ts m

/-- The sort key of lines 108-110:
`x[1]['total_positions'] or (x[1]['long_count'] + x[1]['short_count'])`,
compared descending. -/
def remainingOrder (a b : String × Stats) : Prop :=
  pyOr b.2.total_positions (b.2.long_count + b.2.short_count) ≤
    pyOr a.2.total_positions (a.2.long_count + a.2.short_count)

instance : DecidableRel remainingOrder := fun a b =>
  inferInstanceAs (Decidable (_ ≤ _))

instance : IsTotal (String × Stats) remainingOrder :=
  ⟨fun a b => le_total _ _⟩

instance : IsTrans (String × Stats) remainingOrder :=
  ⟨fun _ _ _ h1 h2 => le_trans h2 h1⟩

/-- Lines 108-110: Python's `sorted(..., reverse=True)` — a stable sort by
the descending key; insertion sort with the total preorder `remainingOrder`
is stable and sorted, hence coincides with it. -/
def sortRemaining (m : List (String × Stats)) : List (String × Stats) :=
  List.insertionSort remainingOrder m

/-- Lines 51-121: the aggregation `get_latest_smart_money`. -/
def get_latest_smart_money (data : List PRecord) :
    Except PyErr (List TokenSentiment) :=
  (buildGroups [] data).map (fun m =>
    let pr := priorityPass priorityTokens m
    (pr.1 ++ (sortRemaining pr.2).map (fun e => emit e.1 e.2)).take 6)

/-- Token normalizer of the variant implementation
`api-tests/SmartMoneyPosition/ATH-GetSmartMoneyPosition.py`, line 149:
`token if token.startswith('0x') else f"{token.lstrip('$').split('-')[-1]}"`. -/
def splitOnChar (sep : Char) : List Char → List (List Char)
  | [] => [[]]
  | c :: cs =>
    if c = sep then [] :: splitOnChar sep cs
    else
      match splitOnChar sep cs with
      | [] => [[c]]
      | w :: ws => (c :: w) :: ws

def cleaned_token (token : String) : String :=
  match token.toList with
  | '0' :: 'x' :: _ => token
  | cs =>
    String.mk (((splitOnChar '-' (cs.dropWhile (fun c => c = '$'))).getLastD []))

/-- Token normalizer of `transform_position_data`
(`api_tests/SmartMoneyPosition/ath_get_smart_money_position.py`,
lines 143-152): uppercase, then if `'-'` occurs take `split('-')[1]`. -/
def transform_token (s : String) : String :=
  let up := s.toList.map Char.toUpper
  if up.contains '-' then String.mk ((splitOnChar '-' up).getD 1 [])
  else String.mk up

/-! ### The scaled-integer percentage computation agrees with the rational one -/

instance {ε α : Type _} [DecidableEq ε] [DecidableEq α] :
    DecidableEq (Except ε α) := fun a b =>
  match a, b with
  | .error e, .error f =>
    if h : e = f then .isTrue (by rw [h])
    else .isFalse (fun hc => h (by cases hc; rfl))
  | .ok x, .ok y =>
    if h : x = y then .isTrue (by rw [h])
    else .isFalse (fun hc => h (by cases hc; rfl))
  | .error _, .ok _ => .isFalse (fun hc => Except.noConfusion hc)
  | .ok _, .error _ => .isFalse (fun hc => Except.noConfusion hc)

/-- Truncating division is invariant under scaling by a positive factor. -/
theorem tdiv_mul_mul_of_pos (g a b : ℤ) (hg : 0 < g) (hb : 0 ≤ b) :
    (g * a).tdiv (g * b) = a.tdiv b := by
  rcases le_or_lt 0 a with ha | ha
  · rw [Int.tdiv_eq_ediv (by positivity) (by positivity), Int.tdiv_eq_ediv ha hb,
      Int.mul_ediv_mul_of_pos _ _ hg]
  · have ha' : 0 ≤ -a := by omega
    have h2 : (g * -a).tdiv (g * b) = (-a).tdiv b := by
      rw [Int.tdiv_eq_ediv (by positivity) (by positivity), Int.tdiv_eq_ediv ha' hb,
        Int.mul_ediv_mul_of_pos _ _ hg]
    have h1 : g * a = -(g * -a) := by ring
    rw [h1, Int.neg_tdiv, h2, Int.neg_tdiv, neg_neg]

/-- `pyInt` of an integer quotient is truncating division. -/
theorem pyInt_intCast_div (a b : ℤ) (hb : 0 < b) :
    pyInt ((a : ℚ) / (b : ℚ)) = a.tdiv b := by
  obtain ⟨c, hc1, hc2⟩ :=
    Rat.exists_eq_mul_div_num_and_eq_mul_div_den a (Int.ne_of_gt hb)
  set q : ℚ := (a : ℚ) / (b : ℚ) with hq
  have hden : (0 : ℤ) < (q.den : ℤ) := by exact_mod_cast q.pos
  have hc : 0 < c := by nlinarith
  have h3 : a.tdiv b = (c * q.num).tdiv (c * (q.den : ℤ)) := by rw [← hc1, ← hc2]
  rw [h3, tdiv_mul_mul_of_pos c _ _ hc (le_of_lt hden)]
  rfl

/-- The integer computation in `processRecord` is exactly
`int(total * percentage / 100)` on the rational value of the percentage. -/
theorem pyTruncPct_eq_pyInt (t : Int) (d : PyFloat) :
    pyTruncPct t d = pyInt ((t : ℚ) * d.toRat / 100) := by
  have h : ((t : ℚ) * d.toRat / 100) =
      ((t * d.man : ℤ) : ℚ) / ((100 * (10 : ℤ) ^ d.exp : ℤ) : ℚ) := by
    rw [PyFloat.toRat]
    push_cast
    field_simp
    exact Or.inl (by ring)
  rw [h, pyInt_intCast_div _ _ (by positivity)]
  rfl

/-! ### Dictionary (association list) infrastructure -/

/-- The keys of the dict model, in insertion order. -/
def keysOf (m : List (String × Stats)) : List String := m.map Prod.fst

@[simp] theorem keysOf_nil : keysOf [] = [] := rfl

@[simp] theorem keysOf_cons (e : String × Stats) (m : List (String × Stats)) :
    keysOf (e :: m) = e.1 :: keysOf m := rfl

@[simp] theorem keysOf_append (m1 m2 : List (String × Stats)) :
    keysOf (m1 ++ m2) = keysOf m1 ++ keysOf m2 := List.map_append _ _ _

@[simp] theorem keysOf_alistUpdate (m : List (String × Stats)) (k : String)
    (v : Stats) : keysOf (alistUpdate m k v) = keysOf m := by
  unfold keysOf alistUpdate
  rw [List.map_map]
  refine List.map_congr_left (fun e _ => ?_)
  by_cases h : e.1 = k <;> simp [h]

theorem alistFind?_isSome (m : List (String × Stats)) (k : String) :
    (alistFind? m k).isSome ↔ k ∈ keysOf m := by
  induction m with
  | nil => simp [alistFind?]
  | cons e m ih =>
    by_cases h : e.1 = k
    · simp [alistFind?, List.find?_cons_of_pos, h]
    · simp only [keysOf_cons, List.mem_cons]
      rw [alistFind?, List.find?_cons_of_neg _ (by simpa using h)]
      rw [show ((m.find? fun e => e.1 = k).map fun e => e.2) = alistFind? m k from rfl]
      rw [ih]
      constructor
      · exact Or.inr
      · rintro (hc | hc)
        · exact absurd hc.symm h
        · exact hc

theorem alistFind?_mem {m : List (String × Stats)} {k : String} {v : Stats}
    (h : alistFind? m k = some v) : (k, v) ∈ m := by
  unfold alistFind? at h
  cases hf : m.find? (fun e => e.1 = k) with
  | none => simp [hf] at h
  | some e =>
    have h1 : e.1 = k := by simpa using List.find?_some hf
    have h2 := List.mem_of_find?_eq_some hf
    have h3 : e.2 = v := by simp [hf] at h; exact h
    have : e = (k, v) := Prod.ext h1 h3
    exact this ▸ h2

theorem mem_alistUpdate {m : List (String × Stats)} {k : String} {v : Stats}
    {e : String × Stats} (h : e ∈ alistUpdate m k v) :
    (e ∈ m ∧ e.1 ≠ k) ∨ e = (k, v) := by
  unfold alistUpdate at h
  obtain ⟨e0, he0, heq⟩ := List.mem_map.1 h
  by_cases h0 : e0.1 = k
  · right; simp only [h0, if_pos] at heq; exact heq.symm
  · left; simp only [h0, if_neg, not_false_iff] at heq; subst heq; exact ⟨he0, h0⟩

theorem mem_alistRemove {m : List (String × Stats)} {k : String}
    {e : String × Stats} : e ∈ alistRemove m k ↔ e ∈ m ∧ e.1 ≠ k := by
  simp [alistRemove, List.mem_filter]

theorem alistRemove_subset (m : List (String × Stats)) (k : String) :
    alistRemove m k ⊆ m := fun _ he => (mem_alistRemove.1 he).1

theorem keysOf_alistRemove (m : List (String × Stats)) (k : String) :
    keysOf (alistRemove m k) = (keysOf m).filter (fun t => t ≠ k) := by
  induction m with
  | nil => rfl
  | cons e m ih =>
    by_cases h : e.1 = k <;>
      simp [alistRemove, keysOf, List.filter_cons, h] at * <;>
      simpa [alistRemove, keysOf] using ih

theorem length_alistRemove {m : List (String × Stats)} {k : String}
    (hn : (keysOf m).Nodup) (hk : k ∈ keysOf m) :
    (alistRemove m k).length + 1 = m.length := by
  induction m with
  | nil => simp [keysOf] at hk
  | cons e m ih =>
    simp only [keysOf_cons, List.nodup_cons] at hn
    rcases List.mem_cons.1 hk with h | h
    · have hrm : alistRemove m k = m := by
        refine List.filter_eq_self.2 (fun a ha => ?_)
        have hak : a.1 ≠ k := by
          intro hc
          have hmem : a.1 ∈ keysOf m := List.mem_map_of_mem Prod.fst ha
          rw [hc] at hmem
          exact hn.1 (h ▸ hmem)
        simpa using hak
      have : alistRemove (e :: m) k = alistRemove m k := by
        simp [alistRemove, List.filter_cons, h.symm]
      rw [this, hrm]
      simp
    · have hne : e.1 ≠ k := by
        intro hc
        exact hn.1 (hc ▸ h)
      have : alistRemove (e :: m) k = e :: alistRemove m k := by
        simp [alistRemove, List.filter_cons, hne]
      rw [this]
      simpa using ih hn.2 h

/-! ### Facts about the grouping loop -/

theorem stepRecord_skip {m : List (String × Stats)} {p : PRecord}
    (h : extractToken p = none) : stepRecord m p = .ok m := by
  simp [stepRecord, h]

theorem stepRecord_ok_keys {m m2 : List (String × Stats)} {p : PRecord}
    {tok : String} (htok : extractToken p = some tok)
    (h : stepRecord m p = .ok m2) :
    keysOf m2 = if tok ∈ keysOf m then keysOf m else keysOf m ++ [tok] := by
  simp only [stepRecord, htok] at h
  cases hpr : processRecord ((alistFind? m tok).getD (initStats p)) p with
  | error e => simp [hpr, Except.map] at h
  | ok st =>
    simp only [hpr, Except.map, Except.ok.injEq] at h
    subst h
    by_cases hfound : (alistFind? m tok).isSome
    · simp [hfound, keysOf_alistUpdate, (alistFind?_isSome m tok).1 hfound]
    · have hnot : tok ∉ keysOf m := fun hc => hfound ((alistFind?_isSome m tok).2 hc)
      simp [hfound, keysOf_alistUpdate, hnot]

@[simp] theorem buildGroups_nil (m : List (String × Stats)) :
    buildGroups m [] = .ok m := rfl

theorem buildGroups_cons (m : List (String × Stats)) (p : PRecord)
    (ps : List PRecord) :
    buildGroups m (p :: ps) =
      match stepRecord m p with
      | .error e => .error e
      | .ok m2 => buildGroups m2 ps := rfl

theorem buildGroups_mem_keys : ∀ (ps : List PRecord) (m m2 : List (String × Stats)),
    buildGroups m ps = .ok m2 →
    ∀ t, (t ∈ keysOf m2 ↔ t ∈ keysOf m ∨ t ∈ ps.filterMap extractToken) := by
  intro ps
  induction ps with
  | nil =>
    intro m m2 h t
    simp only [buildGroups_nil, Except.ok.injEq] at h
    subst h
    simp
  | cons p ps ih =>
    intro m m2 h t
    rw [buildGroups_cons] at h
    cases hstep : stepRecord m p with
    | error e => rw [hstep] at h; exact absurd h (by simp)
    | ok m1 =>
      rw [hstep] at h
      have hih := ih m1 m2 h t
      cases hext : extractToken p with
      | none =>
        rw [stepRecord_skip hext] at hstep
        simp only [Except.ok.injEq] at hstep
        subst hstep
        simpa [List.filterMap_cons, hext] using hih
      | some tok =>
        have hk := stepRecord_ok_keys hext hstep
        rw [hih, hk]
        by_cases htm : tok ∈ keysOf m
        · simp only [htm, if_pos, List.filterMap_cons, hext, List.mem_cons]
          constructor
          · intro hc; tauto
          · rintro (hc | hc | hc)
            · exact Or.inl hc
            · exact Or.inl (hc ▸ htm)
            · exact Or.inr hc
        · simp only [htm, if_neg, not_false_iff, List.filterMap_cons, hext,
            List.mem_cons, List.mem_append, List.mem_singleton]
          tauto

theorem buildGroups_keys_nodup : ∀ (ps : List PRecord) (m m2 : List (String × Stats)),
    (keysOf m).Nodup → buildGroups m ps = .ok m2 → (keysOf m2).Nodup := by
  intro ps
  induction ps with
  | nil =>
    intro m m2 hn h
    simp only [buildGroups_nil, Except.ok.injEq] at h
    subst h; exact hn
  | cons p ps ih =>
    intro m m2 hn h
    rw [buildGroups_cons] at h
    cases hstep : stepRecord m p with
    | error e => rw [hstep] at h; exact absurd h (by simp)
    | ok m1 =>
      rw [hstep] at h
      refine ih m1 m2 ?_ h
      cases hext : extractToken p with
      | none =>
        rw [stepRecord_skip hext] at hstep
        simp only [Except.ok.injEq] at hstep
        subst hstep; exact hn
      | some tok =>
        rw [stepRecord_ok_keys hext hstep]
        by_cases htm : tok ∈ keysOf m
        · simpa [htm] using hn
        · simp [htm, List.nodup_append, hn]

/-- Records whose extracted token is missing or empty are skipped: filtering
them out of the batch does not change the grouping. -/
theorem buildGroups_filter_isSome : ∀ (ps : List PRecord) (m : List (String × Stats)),
    buildGroups m (ps.filter (fun p => (extractToken p).isSome)) = buildGroups m ps := by
  intro ps
  induction ps with
  | nil => intro m; rfl
  | cons p ps ih =>
    intro m
    by_cases h : (extractToken p).isSome
    · rw [List.filter_cons_of_pos (by simpa using h), buildGroups_cons, buildGroups_cons]
      cases hstep : stepRecord m p with
      | error e => rfl
      | ok m1 => exact ih m1
    · rw [List.filter_cons_of_neg (by simpa using h), buildGroups_cons]
      have hnone : extractToken p = none := Option.not_isSome_iff_eq_none.1 h
      rw [stepRecord_skip hnone]
      exact ih m

/-! ### Facts about the priority pass and the sort -/

theorem priorityPass_spec : ∀ (ts : List String) (m : List (String × Stats)),
    (keysOf m).Nodup → ts.Nodup →
    ((priorityPass ts m).1.map (fun r => r.token) =
        ts.filter (fun t => t ∈ keysOf m)) ∧
    keysOf (priorityPass ts m).2 = (keysOf m).filter (fun t => t ∉ ts) ∧
    (priorityPass ts m).1.length + (priorityPass ts m).2.length = m.length := by
  intro ts
  induction ts with
  | nil =>
    intro m _ _
    refine ⟨rfl, ?_, by simp [priorityPass]⟩
    simp [priorityPass]
  | cons t ts ih =>
    intro m hm hts
    rw [List.nodup_cons] at hts
    cases hf : alistFind? m t with
    | some st =>
      have htm : t ∈ keysOf m := (alistFind?_isSome m t).1 (by simp [hf])
      have hmr : (keysOf (alistRemove m t)).Nodup := by
        rw [keysOf_alistRemove]; exact hm.filter _
      obtain ⟨ih1, ih2, ih3⟩ := ih (alistRemove m t) hmr hts.2
      have hkr := keysOf_alistRemove m t
      refine ⟨?_, ?_, ?_⟩
      · simp only [priorityPass, hf, List.map_cons]
        rw [ih1, List.filter_cons_of_pos (by simpa using htm)]
        congr 1
        refine List.filter_congr (fun u hu => ?_)
        have hut : u ≠ t := fun hc => hts.1 (hc ▸ hu)
        simp [hkr, List.mem_filter, hut]
      · simp only [priorityPass, hf]
        rw [ih2, hkr, List.filter_filter]
        refine List.filter_congr (fun u _ => ?_)
        by_cases h1 : u = t <;> by_cases h2 : u ∈ ts <;> simp [h1, h2]
      · simp only [priorityPass, hf, List.length_cons]
        have hlen := length_alistRemove hm htm
        omega
    | none =>
      have htm : t ∉ keysOf m := by
        intro hc
        have hs := (alistFind?_isSome m t).2 hc
        rw [hf] at hs
        simp at hs
      obtain ⟨ih1, ih2, ih3⟩ := ih m hm hts.2
      refine ⟨?_, ?_, ?_⟩
      · simp only [priorityPass, hf]
        rw [ih1, List.filter_cons_of_neg (by simpa using htm)]
      · simp only [priorityPass, hf]
        rw [ih2]
        refine List.filter_congr (fun u hu => ?_)
        have hut : u ≠ t := fun hc => htm (hc ▸ hu)
        simp [List.mem_cons, hut]
      · simpa [priorityPass, hf] using ih3

theorem priorityPass_fst_mem : ∀ (ts : List String) (m : List (String × Stats))
    (r : TokenSentiment), r ∈ (priorityPass ts m).1 →
    ∃ e, e ∈ m ∧ e.1 ∈ ts ∧ r = emit e.1 e.2 := by
  intro ts
  induction ts with
  | nil => intro m r hr; simp [priorityPass] at hr
  | cons t ts ih =>
    intro m r hr
    cases hf : alistFind? m t with
    | some st =>
      simp only [priorityPass, hf, List.mem_cons] at hr
      rcases hr with hr | hr
      · exact ⟨(t, st), alistFind?_mem hf, by simp, by simp [hr]⟩
      · obtain ⟨e, he, hets, hre⟩ := ih _ _ hr
        exact ⟨e, alistRemove_subset m t he, by simp [hets], hre⟩
    | none =>
      simp only [priorityPass, hf] at hr
      obtain ⟨e, he, hets, hre⟩ := ih _ _ hr
      exact ⟨e, he, by simp [hets], hre⟩

theorem priorityPass_snd_subset : ∀ (ts : List String) (m : List (String × Stats)),
    (priorityPass ts m).2 ⊆ m := by
  intro ts
  induction ts with
  | nil => intro m e he; exact he
  | cons t ts ih =>
    intro m e he
    cases hf : alistFind? m t with
    | some st =>
      simp only [priorityPass, hf] at he
      exact alistRemove_subset m t (ih _ he)
    | none =>
      simp only [priorityPass, hf] at he
      exact ih _ he

theorem priorityPass_all_present {m : List (String × Stats)}
    (hB : "BTC" ∈ keysOf m) (hE : "ETH" ∈ keysOf m) (hS : "SOL" ∈ keysOf m) :
    ∃ sB sE sS, (priorityPass priorityTokens m).1 =
      [emit "BTC" sB, emit "ETH" sE, emit "SOL" sS] := by
  obtain ⟨sB, hfB⟩ := Option.isSome_iff_exists.1 ((alistFind?_isSome m "BTC").2 hB)
  have hE1 : "ETH" ∈ keysOf (alistRemove m "BTC") := by
    rw [keysOf_alistRemove, List.mem_filter]
    exact ⟨hE, by decide⟩
  obtain ⟨sE, hfE⟩ :=
    Option.isSome_iff_exists.1 ((alistFind?_isSome (alistRemove m "BTC") "ETH").2 hE1)
  have hS2 : "SOL" ∈ keysOf (alistRemove (alistRemove m "BTC") "ETH") := by
    rw [keysOf_alistRemove, List.mem_filter, keysOf_alistRemove, List.mem_filter]
    exact ⟨⟨hS, by decide⟩, by decide⟩
  obtain ⟨sS, hfS⟩ := Option.isSome_iff_exists.1
    ((alistFind?_isSome (alistRemove (alistRemove m "BTC") "ETH") "SOL").2 hS2)
  refine ⟨sB, sE, sS, ?_⟩
  simp [priorityTokens, priorityPass, hfB, hfE, hfS]

theorem sortRemaining_perm (m : List (String × Stats)) :
    (sortRemaining m).Perm m :=
  List.perm_insertionSort remainingOrder m

theorem sortRemaining_sorted (m : List (String × Stats)) :
    List.Sorted remainingOrder (sortRemaining m) :=
  List.sorted_insertionSort remainingOrder m

/-! ### Decomposing the aggregation's output -/

theorem get_latest_smart_money_ok {data : List PRecord} {out : List TokenSentiment}
    (h : get_latest_smart_money data = .ok out) :
    ∃ m, buildGroups [] data = .ok m ∧
      out = ((priorityPass priorityTokens m).1 ++
        (sortRemaining (priorityPass priorityTokens m).2).map
          (fun e => emit e.1 e.2)).take 6 := by
  unfold get_latest_smart_money at h
  cases hbg : buildGroups [] data with
  | error e => rw [hbg] at h; simp [Except.map] at h
  | ok m =>
    rw [hbg] at h
    simp only [Except.map, Except.ok.injEq] at h
    exact ⟨m, rfl, h.symm⟩

theorem mem_output {data : List PRecord} {out : List TokenSentiment}
    {r : TokenSentiment} (h : get_latest_smart_money data = .ok out)
    (hr : r ∈ out) :
    ∃ m e, buildGroups [] data = .ok m ∧ e ∈ m ∧ r = emit e.1 e.2 := by
  obtain ⟨m, hbg, hout⟩ := get_latest_smart_money_ok h
  subst hout
  have hr' : r ∈ (priorityPass priorityTokens m).1 ++
      (sortRemaining (priorityPass priorityTokens m).2).map (fun e => emit e.1 e.2) :=
    (List.take_sublist 6 _).subset hr
  rcases List.mem_append.1 hr' with h1 | h1
  · obtain ⟨e, he, _, hre⟩ := priorityPass_fst_mem _ _ _ h1
    exact ⟨m, e, hbg, he, hre⟩
  · obtain ⟨e, he, hre⟩ := List.mem_map.1 h1
    have he2 : e ∈ (priorityPass priorityTokens m).2 :=
      (sortRemaining_perm _).subset he
    exact ⟨m, e, hbg, priorityPass_snd_subset _ _ he2, hre.symm⟩

/-! ### The claims -/

/-- C9: records whose token identifier is missing or empty are skipped: they
contribute to no group and no output entry, and the aggregation's result on
any batch equals its result on the batch with those records removed. -/
theorem C9_tokenless_skipped (data : List PRecord) :
    get_latest_smart_money data =
      get_latest_smart_money (data.filter (fun p => (extractToken p).isSome)) := by
  unfold get_latest_smart_money
  rw [buildGroups_filter_isSome]

/-- C3: contrary to the claim (and to the repository's own
`test_invalid_percentage`, which expects `long_count = 0`,
`short_count = 100`), a legacy record whose percentage string is not numeric
makes `get_latest_smart_money` raise `ValueError`: `float('invalid')` at
line 79 of `ath_get_smart_money_position.gen.py` is not guarded. -/
theorem C3_invalid_percentage_raises :
    get_latest_smart_money
      [{ token := some "BTC", total_positions := some 100,
         percentage := some "invalid%", position := some "LONG" }] =
    .error .valueError := by rfl

/-- C7: every emitted record's sentiment is "bullish" when
`long_count > short_count` and "bearish" otherwise; in particular an exact
tie yields "bearish" (strict greater-than test). -/
theorem C7_sentiment_rule (data : List PRecord) (out : List TokenSentiment)
    (h : get_latest_smart_money data = .ok out) :
    ∀ r ∈ out, r.sentiment =
      if r.long_count > r.short_count then "bullish" else "bearish" := by
  intro r hr
  obtain ⟨m, e, _, _, hre⟩ := mem_output h hr
  subst hre
  rfl

/-- C7 witness: the sentiment rule evaluated on a concrete aggregated batch
(one live long and one live short BTC position: a tie, reported bearish). -/
theorem C7_sentiment_rule_witness :
    (⟨"BTC", 1, 1, 2, 2, ["gmx", "kwenta"], "bearish"⟩ : TokenSentiment).sentiment =
      if (⟨"BTC", 1, 1, 2, 2, ["gmx", "kwenta"], "bearish"⟩ : TokenSentiment).long_count >
          (⟨"BTC", 1, 1, 2, 2, ["gmx", "kwenta"], "bearish"⟩ : TokenSentiment).short_count
        then "bullish" else "bearish" :=
  C7_sentiment_rule
    [{ indexToken := some "BTC", isLong := some true,
       trader_id := some "0x123", protocol := some "gmx" },
     { indexToken := some "BTC", isLong := some false,
       trader_id := some "0x456", protocol := some "kwenta" }]
    [⟨"BTC", 1, 1, 2, 2, ["gmx", "kwenta"], "bearish"⟩] (by rfl)
    ⟨"BTC", 1, 1, 2, 2, ["gmx", "kwenta"], "bearish"⟩ (by simp)

/-- C1: whenever BTC, ETH and SOL all occur among the batch's extracted
tokens, the first three output entries are the BTC, ETH and SOL records, in
exactly that fixed order, regardless of position counts. -/
theorem C1_priority_first_three (data : List PRecord) (out : List TokenSentiment)
    (h : get_latest_smart_money data = .ok out)
    (hB : "BTC" ∈ data.filterMap extractToken)
    (hE : "ETH" ∈ data.filterMap extractToken)
    (hS : "SOL" ∈ data.filterMap extractToken) :
    out[0]?.map (fun r => r.token) = some "BTC" ∧
    out[1]?.map (fun r => r.token) = some "ETH" ∧
    out[2]?.map (fun r => r.token) = some "SOL" := by
  obtain ⟨m, hbg, hout⟩ := get_latest_smart_money_ok h
  have hmem := buildGroups_mem_keys data [] m hbg
  have hB2 : "BTC" ∈ keysOf m := (hmem "BTC").2 (Or.inr hB)
  have hE2 : "ETH" ∈ keysOf m := (hmem "ETH").2 (Or.inr hE)
  have hS2 : "SOL" ∈ keysOf m := (hmem "SOL").2 (Or.inr hS)
  obtain ⟨sB, sE, sS, hfst⟩ := priorityPass_all_present hB2 hE2 hS2
  subst hout
  rw [hfst]
  refine ⟨?_, ?_, ?_⟩ <;> simp [List.getElem?_take, emit]

/-- C1 witness: a batch holding legacy records for SOL, ETH and BTC (in that
input order) is emitted as BTC, ETH, SOL. -/
theorem C1_priority_first_three_witness :
    (([⟨"BTC", 18, 12, 30, 0, [], "bullish"⟩,
       ⟨"ETH", 22, 12, 34, 0, [], "bullish"⟩,
       ⟨"SOL", 15, 11, 26, 0, [], "bullish"⟩] :
        List TokenSentiment)[0]?.map (fun r => r.token) = some "BTC") ∧
    (([⟨"BTC", 18, 12, 30, 0, [], "bullish"⟩,
       ⟨"ETH", 22, 12, 34, 0, [], "bullish"⟩,
       ⟨"SOL", 15, 11, 26, 0, [], "bullish"⟩] :
        List TokenSentiment)[1]?.map (fun r => r.token) = some "ETH") ∧
    (([⟨"BTC", 18, 12, 30, 0, [], "bullish"⟩,
       ⟨"ETH", 22, 12, 34, 0, [], "bullish"⟩,
       ⟨"SOL", 15, 11, 26, 0, [], "bullish"⟩] :
        List TokenSentiment)[2]?.map (fun r => r.token) = some "SOL") :=
  C1_priority_first_three
    [{ token := some "SOL", total_positions := some 26,
       percentage := some "61.5%", position := some "LONG" },
     { token := some "ETH", total_positions := some 34,
       percentage := some "67.6%", position := some "LONG" },
     { token := some "BTC", total_positions := some 30,
       percentage := some "63.3%", position := some "LONG" }]
    [⟨"BTC", 18, 12, 30, 0, [], "bullish"⟩,
     ⟨"ETH", 22, 12, 34, 0, [], "bullish"⟩,
     ⟨"SOL", 15, 11, 26, 0, [], "bullish"⟩]
    (by rfl) (by decide) (by decide) (by decide)

/-- C5: the output length equals min 6 (number of distinct extracted
tokens); in particular empty input yields an empty output rather than an
error. -/
theorem C5_output_length :
    get_latest_smart_money ([] : List PRecord) = .ok [] ∧
    ∀ (data : List PRecord) (out : List TokenSentiment),
      get_latest_smart_money data = .ok out →
      out.length = min 6 (data.filterMap extractToken).dedup.length := by
  refine ⟨rfl, ?_⟩
  intro data out h
  obtain ⟨m, hbg, hout⟩ := get_latest_smart_money_ok h
  have hnodup : (keysOf m).Nodup := buildGroups_keys_nodup data [] m (by simp) hbg
  have hmem := buildGroups_mem_keys data [] m hbg
  have hperm : (keysOf m).Perm (data.filterMap extractToken).dedup := by
    refine List.perm_of_nodup_nodup_toFinset_eq hnodup (List.nodup_dedup _) ?_
    ext t
    simp [List.mem_toFinset, List.mem_dedup, hmem t]
  obtain ⟨_, _, hlen⟩ := priorityPass_spec priorityTokens m hnodup (by decide)
  have hm : m.length = (data.filterMap extractToken).dedup.length := by
    have hl := hperm.length_eq
    simpa [keysOf, List.length_map] using hl
  subst hout
  rw [List.length_take, List.length_append, List.length_map,
    (sortRemaining_perm _).length_eq, hlen, hm]

/-- C5 witness: a two-record batch (one token emitted twice would collapse;
here two distinct tokens) has output length min 6 2 = 2. -/
theorem C5_output_length_witness :
    ([⟨"BTC", 60, 40, 100, 0, [], "bullish"⟩,
      ⟨"DOGE", 15, 35, 50, 0, [], "bearish"⟩] : List TokenSentiment).length =
      min 6 (([{ token := some "BTC", total_positions := some 100,
                 percentage := some "60.0%", position := some "LONG" },
               { token := some "DOGE", total_positions := some 50,
                 percentage := some "70.0%", position := some "SHORT" }] :
          List PRecord).filterMap extractToken).dedup.length :=
  C5_output_length.2
    [{ token := some "BTC", total_positions := some 100,
       percentage := some "60.0%", position := some "LONG" },
     { token := some "DOGE", total_positions := some 50,
       percentage := some "70.0%", position := some "SHORT" }]
    [⟨"BTC", 60, 40, 100, 0, [], "bullish"⟩,
     ⟨"DOGE", 15, 35, 50, 0, [], "bearish"⟩]
    (by rfl)

/-- C10: the token fields of the emitted records are pairwise distinct — a
priority token is deleted from the remaining pool after the priority pass,
and dict keys are unique. -/
theorem C10_output_tokens_distinct (data : List PRecord)
    (out : List TokenSentiment) (h : get_latest_smart_money data = .ok out) :
    (out.map (fun r => r.token)).Nodup := by
  obtain ⟨m, hbg, hout⟩ := get_latest_smart_money_ok h
  have hnodup : (keysOf m).Nodup := buildGroups_keys_nodup data [] m (by simp) hbg
  obtain ⟨h1, h2, _⟩ := priorityPass_spec priorityTokens m hnodup (by decide)
  subst hout
  rw [List.map_take]
  refine List.Nodup.sublist (List.take_sublist _ _) ?_
  rw [List.map_append]
  have hsnd : ((sortRemaining (priorityPass priorityTokens m).2).map
      (fun e => emit e.1 e.2)).map (fun r => r.token) =
      keysOf (sortRemaining (priorityPass priorityTokens m).2) := by
    rw [List.map_map]; rfl
  rw [h1, hsnd]
  have hpermKeys : (keysOf (sortRemaining (priorityPass priorityTokens m).2)).Perm
      (keysOf (priorityPass priorityTokens m).2) :=
    (sortRemaining_perm _).map Prod.fst
  refine List.Nodup.append ?_ ?_ ?_
  · exact (by decide : priorityTokens.Nodup).filter _
  · refine hpermKeys.nodup_iff.2 ?_
    rw [h2]
    exact hnodup.filter _
  · intro a ha hb
    have ha2 : a ∈ priorityTokens := List.mem_of_mem_filter ha
    have hb2 : a ∈ keysOf (priorityPass priorityTokens m).2 := hpermKeys.subset hb
    rw [h2, List.mem_filter] at hb2
    have : a ∉ priorityTokens := by simpa using hb2.2
    exact this ha2

/-- C10 witness: the distinctness evaluated on a concrete two-token batch in
which the same token appears in both input shapes. -/
theorem C10_output_tokens_distinct_witness :
    (([⟨"BTC", 61, 40, 100, 1, ["gmx"], "bullish"⟩,
       ⟨"DOGE", 15, 35, 50, 0, [], "bearish"⟩] :
        List TokenSentiment).map (fun r => r.token)).Nodup :=
  C10_output_tokens_distinct
    [{ token := some "BTC", total_positions := some 100,
       percentage := some "60.0%", position := some "LONG" },
     { indexToken := some "BTC", isLong := some true,
       trader_id := some "0x1", protocol := some "gmx" },
     { token := some "DOGE", total_positions := some 50,
       percentage := some "70.0%", position := some "SHORT" }]
    [⟨"BTC", 61, 40, 100, 1, ["gmx"], "bullish"⟩,
     ⟨"DOGE", 15, 35, 50, 0, [], "bearish"⟩]
    (by rfl)

/-- Ten distinct non-priority tokens with strictly decreasing
total_positions (legacy records, each 60.0% long). -/
def c6Batch : List PRecord :=
  [{ token := some "T0", total_positions := some 100,
     percentage := some "60.0%", position := some "LONG" },
   { token := some "T1", total_positions := some 99,
     percentage := some "60.0%", position := some "LONG" },
   { token := some "T2", total_positions := some 98,
     percentage := some "60.0%", position := some "LONG" },
   { token := some "T3", total_positions := some 97,
     percentage := some "60.0%", position := some "LONG" },
   { token := some "T4", total_positions := some 96,
     percentage := some "60.0%", position := some "LONG" },
   { token := some "T5", total_positions := some 95,
     percentage := some "60.0%", position := some "LONG" },
   { token := some "T6", total_positions := some 94,
     percentage := some "60.0%", position := some "LONG" },
   { token := some "T7", total_positions := some 93,
     percentage := some "60.0%", position := some "LONG" },
   { token := some "T8", total_positions := some 92,
     percentage := some "60.0%", position := some "LONG" },
   { token := some "T9", total_positions := some 91,
     percentage := some "60.0%", position := some "LONG" }]

/-- The aggregation's output on `c6Batch`: the 6 tokens with the largest
total_positions, in descending order. -/
def c6Expected : List TokenSentiment :=
  [⟨"T0", 60, 40, 100, 0, [], "bullish"⟩,
   ⟨"T1", 59, 40, 99, 0, [], "bullish"⟩,
   ⟨"T2", 58, 40, 98, 0, [], "bullish"⟩,
   ⟨"T3", 58, 39, 97, 0, [], "bullish"⟩,
   ⟨"T4", 57, 39, 96, 0, [], "bullish"⟩,
   ⟨"T5", 57, 38, 95, 0, [], "bullish"⟩]

/-- C6: after the priority tokens, the output entries are ordered by
total_positions descending; and on 10 distinct non-priority tokens with
strictly decreasing total_positions, the output is exactly the 6 largest, in
that order. -/
theorem C6_descending_after_priority :
    (∀ (data : List PRecord) (out : List TokenSentiment),
      get_latest_smart_money data = .ok out →
      List.Sorted (fun a b => b.total_positions ≤ a.total_positions)
        (out.drop ((priorityTokens.filter
          (fun t => t ∈ data.filterMap extractToken)).length))) ∧
    get_latest_smart_money c6Batch = .ok c6Expected := by
  constructor
  · intro data out h
    obtain ⟨m, hbg, hout⟩ := get_latest_smart_money_ok h
    have hnodup : (keysOf m).Nodup := buildGroups_keys_nodup data [] m (by simp) hbg
    have hmem := buildGroups_mem_keys data [] m hbg
    obtain ⟨h1, _, _⟩ := priorityPass_spec priorityTokens m hnodup (by decide)
    have hk : (priorityPass priorityTokens m).1.length =
        (priorityTokens.filter (fun t => t ∈ data.filterMap extractToken)).length := by
      have hfc : (priorityTokens.filter (fun t => t ∈ keysOf m)) =
          (priorityTokens.filter (fun t => t ∈ data.filterMap extractToken)) := by
        refine List.filter_congr (fun t _ => ?_)
        simp [hmem t]
      rw [← hfc, ← h1, List.length_map]
    subst hout
    rw [← hk, List.drop_take, List.drop_left]
    refine List.Pairwise.sublist (List.take_sublist _ _) ?_
    refine List.Pairwise.map _ ?_
      (sortRemaining_sorted (priorityPass priorityTokens m).2)
    intro a b hr
    exact hr
  · rfl

/-- C6 witness: the descending-order property evaluated on the concrete
10-token batch. -/
theorem C6_descending_after_priority_witness :
    List.Sorted (fun a b => b.total_positions ≤ a.total_positions)
      (c6Expected.drop ((priorityTokens.filter
        (fun t => t ∈ c6Batch.filterMap extractToken)).length)) :=
  C6_descending_after_priority.1 c6Batch c6Expected (by rfl)

/-- C4 counterexample: for the legacy record {token:"XRP", total_positions:3,
percentage:"50.0%", position:"LONG"} the code assigns the majority (long)
side int(3*50/100) = 1 — not round(3*50/100) = 2 as the claim states — and
the complement 2 goes to the short side, flipping the sentiment. -/
theorem C4_counterexample :
    get_latest_smart_money
        [{ token := some "XRP", total_positions := some 3,
           percentage := some "50.0%", position := some "LONG" }] =
      .ok [⟨"XRP", 1, 2, 3, 0, [], "bearish"⟩] ∧
    round ((3 : ℚ) * 50 / 100) = 2 ∧ (1 : Int) ≠ 2 := by
  refine ⟨by rfl, ?_, by decide⟩
  rw [round_eq]
  norm_num

/-- C4 amended: for a legacy record with total_positions t, a parseable
percentage of rational value p, and a position whose last word is LONG
(resp. otherwise), the aggregation assigns the stated majority side the
truncation int(t*p/100) — toward zero, not round — and the other side the
complement t - int(t*p/100); in particular for {token:"BTC",
total_positions:100, percentage:"60.0%", position:"LONG"} the output is
long_count = 60, short_count = 40, sentiment = "bullish". -/
theorem C4_majority_truncated :
    (∀ (st : Stats) (p : PRecord) (t : Int) (d : PyFloat),
      p.isLong = none →
      p.total_positions = some t →
      pyFloat? (rstripPct (p.percentage.getD "0%")) = some d →
      (pySplitWs (p.position.getD "")).getLast? = some "LONG" →
      processRecord st p = .ok { st with
        long_count := pyInt ((t : ℚ) * d.toRat / 100)
        short_count := t - pyInt ((t : ℚ) * d.toRat / 100)
        total_positions := t }) ∧
    (∀ (st : Stats) (p : PRecord) (t : Int) (d : PyFloat) (w : String),
      p.isLong = none →
      p.total_positions = some t →
      pyFloat? (rstripPct (p.percentage.getD "0%")) = some d →
      (pySplitWs (p.position.getD "")).getLast? = some w →
      w ≠ "LONG" →
      processRecord st p = .ok { st with
        short_count := pyInt ((t : ℚ) * d.toRat / 100)
        long_count := t - pyInt ((t : ℚ) * d.toRat / 100)
        total_positions := t }) ∧
    get_latest_smart_money
        [{ token := some "BTC", total_positions := some 100,
           percentage := some "60.0%", position := some "LONG" }] =
      .ok [⟨"BTC", 60, 40, 100, 0, [], "bullish"⟩] := by
  refine ⟨?_, ?_, by rfl⟩
  · intro st p t d hL hT hP hPos
    simp [processRecord, hL, hT, hP, hPos, pyTruncPct_eq_pyInt]
  · intro st p t d w hL hT hP hPos hw
    simp [processRecord, hL, hT, hP, hPos, hw, pyTruncPct_eq_pyInt]

/-- C4 witness: the truncating split applied to the concrete record
{token:"BTC", total_positions:100, percentage:"60.0%", position:"LONG"}
starting from a fresh accumulator. -/
theorem C4_majority_truncated_witness :
    processRecord ⟨0, 0, [], [], 100⟩
        { token := some "BTC", total_positions := some 100,
          percentage := some "60.0%", position := some "LONG" } =
      .ok { (⟨0, 0, [], [], 100⟩ : Stats) with
        long_count := pyInt ((100 : ℚ) * (⟨600, 1⟩ : PyFloat).toRat / 100)
        short_count := 100 - pyInt ((100 : ℚ) * (⟨600, 1⟩ : PyFloat).toRat / 100)
        total_positions := 100 } :=
  C4_majority_truncated.1 ⟨0, 0, [], [], 100⟩
    { token := some "BTC", total_positions := some 100,
      percentage := some "60.0%", position := some "LONG" }
    100 ⟨600, 1⟩ rfl rfl (by rfl) (by rfl)

/-- Shape-class invariant for the grouping loop: when every record of a
token has one input shape (`cls t` = the token's records are live) and live
records carry no total_positions value, each accumulator has
total_positions 0 (live-class token) or exactly long+short (legacy-class
token). -/
theorem buildGroups_classInv (cls : String → Prop) :
    ∀ (ps : List PRecord) (m m2 : List (String × Stats)),
    (∀ p ∈ ps, ∀ t, extractToken p = some t → (p.isLong.isSome ↔ cls t)) →
    (∀ p ∈ ps, p.isLong.isSome → p.total_positions.getD 0 = 0) →
    (∀ e ∈ m, (cls e.1 → e.2.total_positions = 0) ∧
      (¬ cls e.1 → e.2.total_positions = e.2.long_count + e.2.short_count)) →
    buildGroups m ps = .ok m2 →
    ∀ e ∈ m2, (cls e.1 → e.2.total_positions = 0) ∧
      (¬ cls e.1 → e.2.total_positions = e.2.long_count + e.2.short_count) := by
  intro ps
  induction ps with
  | nil =>
    intro m m2 _ _ hinv h
    simp only [buildGroups_nil, Except.ok.injEq] at h
    subst h
    exact hinv
  | cons p ps ih =>
    intro m m2 hcls hlive hinv h
    rw [buildGroups_cons] at h
    cases hstep : stepRecord m p with
    | error e => rw [hstep] at h; exact absurd h (by simp)
    | ok m1 =>
      rw [hstep] at h
      refine ih m1 m2 (fun q hq t => hcls q (List.mem_cons_of_mem _ hq) t)
        (fun q hq => hlive q (List.mem_cons_of_mem _ hq)) ?_ h
      cases hext : extractToken p with
      | none =>
        rw [stepRecord_skip hext] at hstep
        simp only [Except.ok.injEq] at hstep
        subst hstep
        exact hinv
      | some tok =>
        simp only [stepRecord, hext] at hstep
        cases hpr : processRecord ((alistFind? m tok).getD (initStats p)) p with
        | error e => rw [hpr] at hstep; simp [Except.map] at hstep
        | ok st2 =>
          rw [hpr] at hstep
          simp only [Except.map, Except.ok.injEq] at hstep
          subst hstep
          intro e he
          rcases mem_alistUpdate he with ⟨hem, hne⟩ | heq
          · by_cases hfound : (alistFind? m tok).isSome
            · rw [if_pos hfound] at hem
              exact hinv e hem
            · rw [if_neg hfound] at hem
              rcases List.mem_append.1 hem with hem2 | hem2
              · exact hinv e hem2
              · exact absurd (by rw [List.mem_singleton.1 hem2]) hne
          · subst heq
            have hcur0 : cls tok →
                ((alistFind? m tok).getD (initStats p)).total_positions = 0 := by
              intro hc
              cases hfind : alistFind? m tok with
              | some stc =>
                have hi := (hinv (tok, stc) (alistFind?_mem hfind)).1 hc
                simpa [hfind] using hi
              | none =>
                have hL : p.isLong.isSome :=
                  (hcls p (List.mem_cons_self p ps) tok hext).2 hc
                have hz := hlive p (List.mem_cons_self p ps) hL
                simpa [hfind, initStats] using hz
            cases hlong : p.isLong with
            | some b =>
              have hc : cls tok :=
                (hcls p (List.mem_cons_self p ps) tok hext).1 (by simp [hlong])
              have h0 := hcur0 hc
              simp only [processRecord, hlong] at hpr
              refine ⟨fun _ => ?_, fun hnc => absurd hc hnc⟩
              cases b <;>
                simp only [Except.ok.injEq] at hpr <;>
                rw [← hpr] <;>
                simpa using h0
            | none =>
              have hnc : ¬ cls tok := by
                intro hc
                have hL := (hcls p (List.mem_cons_self p ps) tok hext).2 hc
                simp [hlong] at hL
              cases hpf : pyFloat? (rstripPct (p.percentage.getD "0%")) with
              | none => simp [processRecord, hlong, hpf] at hpr
              | some d =>
                cases hgl : (pySplitWs (p.position.getD "")).getLast? with
                | none => simp [processRecord, hlong, hpf, hgl] at hpr
                | some w =>
                  simp only [processRecord, hlong, hpf, hgl] at hpr
                  refine ⟨fun hc => absurd hc hnc, fun _ => ?_⟩
                  by_cases hw : w = "LONG"
                  · rw [if_pos hw] at hpr
                    simp only [Except.ok.injEq] at hpr
                    rw [← hpr]
                    dsimp only
                    omega
                  · rw [if_neg hw] at hpr
                    simp only [Except.ok.injEq] at hpr
                    rw [← hpr]
                    dsimp only
                    omega

/-- C2 counterexample: when a live record follows a legacy record for the
same token, the emitted record has long_count + short_count = 61 + 40 = 101
but total_positions = 100, refuting the claim for mixed-shape batches. -/
theorem C2_counterexample :
    get_latest_smart_money
        [{ token := some "BTC", total_positions := some 100,
           percentage := some "60.0%", position := some "LONG" },
         { indexToken := some "BTC", isLong := some true,
           trader_id := some "0x1", protocol := some "gmx" }] =
      .ok [⟨"BTC", 61, 40, 100, 1, ["gmx"], "bullish"⟩] ∧
    (61 : Int) + 40 ≠ 100 := ⟨by rfl, by decide⟩

/-- C2 amended: whenever no token receives records of both input shapes and
live records carry no (i.e. zero) total_positions field, every emitted
TokenSentiment satisfies total_positions = long_count + short_count. -/
theorem C2_total_eq_sum (data : List PRecord) (out : List TokenSentiment)
    (hshape : ∀ p ∈ data, ∀ q ∈ data, ∀ t, extractToken p = some t →
      extractToken q = some t → (p.isLong.isSome ↔ q.isLong.isSome))
    (hlive : ∀ p ∈ data, p.isLong.isSome → p.total_positions.getD 0 = 0)
    (h : get_latest_smart_money data = .ok out) :
    ∀ r ∈ out, r.total_positions = r.long_count + r.short_count := by
  intro r hr
  obtain ⟨m, e, hbg, hem, hre⟩ := mem_output h hr
  have hclsCond : ∀ p ∈ data, ∀ t, extractToken p = some t →
      (p.isLong.isSome ↔ ∃ q, q ∈ data ∧ extractToken q = some t ∧ q.isLong.isSome) := by
    intro p hp t hpt
    constructor
    · intro hS; exact ⟨p, hp, hpt, hS⟩
    · rintro ⟨q, hq, hqt, hqS⟩
      exact (hshape p hp q hq t hpt hqt).2 hqS
  have hinv := buildGroups_classInv
    (fun t => ∃ q, q ∈ data ∧ extractToken q = some t ∧ q.isLong.isSome)
    data [] m hclsCond hlive (by simp) hbg
  have he := hinv e hem
  subst hre
  show pyOr e.2.total_positions (e.2.long_count + e.2.short_count) = _
  by_cases hc : ∃ q, q ∈ data ∧ extractToken q = some e.1 ∧ q.isLong.isSome
  · rw [he.1 hc]
    simp [pyOr, emit]
  · have hts := he.2 hc
    dsimp only [emit]
    rw [pyOr]
    split
    · exact hts
    · rfl

/-- C2 witness: the invariant evaluated on a single-shape batch (one legacy
BTC record). -/
theorem C2_total_eq_sum_witness :
    (⟨"BTC", 60, 40, 100, 0, [], "bullish"⟩ : TokenSentiment).total_positions =
      (⟨"BTC", 60, 40, 100, 0, [], "bullish"⟩ : TokenSentiment).long_count +
        (⟨"BTC", 60, 40, 100, 0, [], "bullish"⟩ : TokenSentiment).short_count :=
  C2_total_eq_sum
    [{ token := some "BTC", total_positions := some 100,
       percentage := some "60.0%", position := some "LONG" }]
    [⟨"BTC", 60, 40, 100, 0, [], "bullish"⟩]
    (by
      intro p hp q hq t hpt hqt
      have hp1 := List.mem_singleton.1 hp
      have hq1 := List.mem_singleton.1 hq
      subst hp1; subst hq1
      exact Iff.rfl)
    (by
      intro p hp hS
      have hp1 := List.mem_singleton.1 hp
      subst hp1
      simp at hS)
    (by rfl)
    ⟨"BTC", 60, 40, 100, 0, [], "bullish"⟩ (by simp)

/-- C8 counterexample: in get_latest_smart_money, records carrying the
symbols "HYPERLIQUID-BTC" (indexToken), "$BTC" (token field) and "BTC"
(indexToken) do not all aggregate into one group: the output has two
entries, "BTC" and "HYPERLIQUID-BTC", not the single group "BTC". -/
theorem C8_counterexample :
    (get_latest_smart_money
        [{ indexToken := some "HYPERLIQUID-BTC", isLong := some true,
           trader_id := some "0xa", protocol := some "hl" },
         { token := some "$BTC", total_positions := some 100,
           percentage := some "60.0%", position := some "LONG" },
         { indexToken := some "BTC", isLong := some true,
           trader_id := some "0xb", protocol := some "gmx" }]).map
      (fun l => l.map (fun r => r.token)) = .ok ["BTC", "HYPERLIQUID-BTC"] ∧
    (["BTC", "HYPERLIQUID-BTC"] : List String).length ≠ 1 := ⟨by rfl, by decide⟩

/-- C8 amended: each implementation has its own normalization.  The
aggregation get_latest_smart_money (gen.py) keys groups by the raw
indexToken when present and nonempty, else the token field with all '$'
characters removed — no uppercasing and no segment splitting — so "$BTC"
(token field) and "BTC" merge while "HYPERLIQUID-BTC" stays distinct.  The
full rule set of the claim (leading-$ strip, final '-'-segment, 0x-prefixed
unchanged) is the variant normalizer of ATH-GetSmartMoneyPosition.py
(cleaned_token), which maps all three example symbols to "BTC" but does not
uppercase; uppercasing (with second-'-'-segment extraction) appears only in
transform_position_data (transform_token). -/
theorem C8_normalization_split :
    extractToken { indexToken := some "HYPERLIQUID-BTC" } = some "HYPERLIQUID-BTC" ∧
    extractToken { token := some "$BTC" } = some "BTC" ∧
    extractToken { indexToken := some "BTC" } = some "BTC" ∧
    extractToken { indexToken := some "btc" } = some "btc" ∧
    cleaned_token "$BTC" = "BTC" ∧
    cleaned_token "HYPERLIQUID-BTC" = "BTC" ∧
    cleaned_token "BTC" = "BTC" ∧
    cleaned_token "0xAB-C" = "0xAB-C" ∧
    cleaned_token "btc" = "btc" ∧
    transform_token "hyperliquid-btc" = "BTC" :=
  ⟨rfl, rfl, rfl, rfl, rfl, rfl, rfl, rfl, rfl, rfl⟩
